import Mathlib

/-!
# Verification of the framesss matrix-structural-analysis core

Shallow embedding of the finite-element core of the `framesss` repository:
the beam element formulator (`fea/element_1d.py`), the member discretizer
(`pre/member_1d.py`), the model DOF assembler (`fea/models/model.py`) and
the linear static solver (`solvers/linear_static.py`).

Machine floats are idealised as exact rationals (ℚ); numpy matrices become
Mathlib matrices over ℚ or ℕ-indexed functions; Python exceptions become
`Except String`.  External numerical routines (`scipy.sparse.linalg.spsolve`,
`numpy.polynomial.polynomial.polyroots`) are abstracted as parameters with
their documented behaviour taken as a hypothesis where needed.
-/

namespace Framesss

/-- `BeamConnection` enum: end connectivity of a member/element
(`continuous_end` = rigid, `hinged_end` = hinged).  The semirigid case is not
used by the element formulator, which dispatches only on these two tags. -/
inductive BeamConnection where
  | continuousEnd : BeamConnection
  | hingedEnd : BeamConnection
deriving DecidableEq, Repr

/-- `Element1DType` enum: beam theory selector
(`navier` = Euler-Bernoulli, `timoshenko`). -/
inductive Element1DType where
  | navier : Element1DType
  | timoshenko : Element1DType
deriving DecidableEq, Repr

/-- Material container: read-only scalar properties consumed by the element
formulation (`pre/material`). -/
structure Material where
  elastic_modulus : ℚ
  shear_modulus : ℚ

/-- Section container: read-only scalar properties (`pre/section.py`). -/
structure Section where
  area_x : ℚ
  area_y : ℚ
  area_z : ℚ
  inertia_x : ℚ
  inertia_y : ℚ
  inertia_z : ℚ

/-- The slice of `Member1D` state consumed by the element stiffness
formulation: material, section and the beam theory selector. -/
structure MemberData where
  material : Material
  «section» : Section
  element_type : Element1DType

/-- The slice of `Element1D` state consumed by the stiffness-coefficient
methods: parent member data, element length and the two end connections
(`Element1D.__init__` stores `hinge_start, hinge_end = hinges`). -/
structure Element1D where
  member : MemberData
  length : ℚ
  hinge_start : BeamConnection
  hinge_end : BeamConnection

/-- `Element1D.get_axial_stiffness_coefficients`:
`kea = (E*A/L) * [[+1, -1], [-1, +1]]`. -/
def get_axial_stiffness_coefficients (e : Element1D) : Matrix (Fin 2) (Fin 2) ℚ :=
  let E := e.member.material.elastic_modulus
  let A := e.member.«section».area_x
  let L := e.length
  let k11 := E * A / L
  k11 • !![(1 : ℚ), -1; -1, 1]

/-- `Element1D.get_torsion_stiffness_coefficients`:
`(G*Jt/L) * [[+1, -1], [-1, +1]]` when both ends are continuous,
otherwise the 2x2 zero matrix. -/
def get_torsion_stiffness_coefficients (e : Element1D) : Matrix (Fin 2) (Fin 2) ℚ :=
  let G := e.member.material.shear_modulus
  let Jt := e.member.«section».inertia_x
  let L := e.length
  if e.hinge_start = BeamConnection.continuousEnd ∧
      e.hinge_end = BeamConnection.continuousEnd then
    let k11 := G * Jt / L
    k11 • !![(1 : ℚ), -1; -1, 1]
  else
    0

/-- Shear parameter Ω used by the flexural xy formulation:
`0` for Navier, `EI/(G*As*L*L)` for Timoshenko (`As = area_y`). -/
def omega_xy (e : Element1D) : ℚ :=
  match e.member.element_type with
  | Element1DType.navier => 0
  | Element1DType.timoshenko =>
      let EI := e.member.material.elastic_modulus * e.member.«section».inertia_z
      let G := e.member.material.shear_modulus
      let As := e.member.«section».area_y
      EI / (G * As * e.length * e.length)

/-- Shear parameter Ω used by the flexural xz formulation:
`0` for Navier, `EI/(G*As*L*L)` for Timoshenko (`As = area_z`, `I = inertia_y`). -/
def omega_xz (e : Element1D) : ℚ :=
  match e.member.element_type with
  | Element1DType.navier => 0
  | Element1DType.timoshenko =>
      let EI := e.member.material.elastic_modulus * e.member.«section».inertia_y
      let G := e.member.material.shear_modulus
      let As := e.member.«section».area_z
      EI / (G * As * e.length * e.length)

/-- `Element1D.get_flexural_xy_stiffness_coefficients`: the four connectivity
cases of the generalized Bernoulli/Timoshenko 4x4 flexural stiffness matrix
in the local xy-plane, transcribed entry by entry from the source. -/
def get_flexural_xy_stiffness_coefficients (e : Element1D) : Matrix (Fin 4) (Fin 4) ℚ :=
  let E := e.member.material.elastic_modulus
  let I := e.member.«section».inertia_z
  let L := e.length
  let EI := E * I
  let Omega := omega_xy e
  let lamb := 1 + 3 * Omega
  let mu := 1 + 12 * Omega
  let gamma := 1 - 6 * Omega
  let laL := lamb * L
  let laL2 := laL * L
  let laL3 := laL2 * L
  let muL := mu * L
  let muL2 := muL * L
  let muL3 := muL2 * L
  match e.hinge_start, e.hinge_end with
  | BeamConnection.continuousEnd, BeamConnection.continuousEnd =>
      let k11 := 12 * EI / muL3
      let k12 := 6 * EI / muL2
      let k22 := 4 * lamb * EI / muL
      let k24 := 2 * gamma * EI / muL
      !![k11, k12, -k11, k12;
         k12, k22, -k12, k24;
         -k11, -k12, k11, -k12;
         k12, k24, -k12, k22]
  | BeamConnection.hingedEnd, BeamConnection.continuousEnd =>
      let k11 := 3 * EI / laL3
      let k14 := 3 * EI / laL2
      let k44 := 3 * EI / laL
      !![k11, 0, -k11, k14;
         0, 0, 0, 0;
         -k11, 0, k11, -k14;
         k14, 0, -k14, k44]
  | BeamConnection.continuousEnd, BeamConnection.hingedEnd =>
      let k11 := 3 * EI / laL3
      let k12 := 3 * EI / laL2
      let k22 := 3 * EI / laL
      !![k11, k12, -k11, 0;
         k12, k22, -k12, 0;
         -k11, -k12, k11, 0;
         0, 0, 0, 0]
  | BeamConnection.hingedEnd, BeamConnection.hingedEnd =>
      0

/-- `Element1D.get_flexural_xz_stiffness_coefficients`: the four connectivity
cases of the 4x4 flexural stiffness matrix in the local xz-plane, transcribed
entry by entry from the source (note the sign pattern differs from xy). -/
def get_flexural_xz_stiffness_coefficients (e : Element1D) : Matrix (Fin 4) (Fin 4) ℚ :=
  let E := e.member.material.elastic_modulus
  let I := e.member.«section».inertia_y
  let L := e.length
  let EI := E * I
  let Omega := omega_xz e
  let lamb := 1 + 3 * Omega
  let mu := 1 + 12 * Omega
  let gamma := 1 - 6 * Omega
  let laL := lamb * L
  let laL2 := laL * L
  let laL3 := laL2 * L
  let muL := mu * L
  let muL2 := muL * L
  let muL3 := muL2 * L
  match e.hinge_start, e.hinge_end with
  | BeamConnection.continuousEnd, BeamConnection.continuousEnd =>
      let k11 := 12 * EI / muL3
      let k12 := 6 * EI / muL2
      let k22 := 4 * lamb * EI / muL
      let k24 := 2 * gamma * EI / muL
      !![k11, -k12, -k11, -k12;
         -k12, k22, k12, k24;
         -k11, k12, k11, k12;
         -k12, k24, k12, k22]
  | BeamConnection.hingedEnd, BeamConnection.continuousEnd =>
      let k11 := 3 * EI / laL3
      let k14 := 3 * EI / laL2
      let k44 := 3 * EI / laL
      !![k11, 0, -k11, -k14;
         0, 0, 0, 0;
         -k11, 0, k11, k14;
         -k14, 0, k14, k44]
  | BeamConnection.continuousEnd, BeamConnection.hingedEnd =>
      let k11 := 3 * EI / laL3
      let k12 := 3 * EI / laL2
      let k22 := 3 * EI / laL
      !![k11, -k12, -k11, 0;
         -k12, k22, k12, 0;
         -k11, k12, k11, 0;
         0, 0, 0, 0]
  | BeamConnection.hingedEnd, BeamConnection.hingedEnd =>
      0

end Framesss

namespace Framesss

/-- C1: for a Navier (Euler-Bernoulli, Ω = 0) element with both ends rigid,
`get_flexural_xy_stiffness_coefficients` returns exactly the classical
Euler-Bernoulli flexural stiffness matrix
`(EI/L³) · [[12, 6L, -12, 6L], [6L, 4L², -6L, 2L²],
[-12, -6L, 12, -6L], [6L, 2L², -6L, 4L²]]` with `E` the elastic modulus,
`I` the section inertia about z and `L` the element length. -/
theorem flexural_xy_navier_rigid_rigid_classical (e : Element1D)
    (htype : e.member.element_type = Element1DType.navier)
    (hs : e.hinge_start = BeamConnection.continuousEnd)
    (he : e.hinge_end = BeamConnection.continuousEnd)
    (hL : 0 < e.length) :
    get_flexural_xy_stiffness_coefficients e =
      (e.member.material.elastic_modulus * e.member.«section».inertia_z /
        e.length ^ 3) •
      !![12, 6 * e.length, -12, 6 * e.length;
         6 * e.length, 4 * e.length ^ 2, -6 * e.length, 2 * e.length ^ 2;
         -12, -6 * e.length, 12, -6 * e.length;
         6 * e.length, 2 * e.length ^ 2, -6 * e.length, 4 * e.length ^ 2] := by
  have hL0 : e.length ≠ 0 := ne_of_gt hL
  simp only [get_flexural_xy_stiffness_coefficients, omega_xy, htype, hs, he]
  ext i j
  fin_cases i <;> fin_cases j <;>
    simp [Matrix.smul_apply] <;>
    field_simp <;> ring

/-- Witness for `flexural_xy_navier_rigid_rigid_classical` at a concrete
Navier element with `E = 2`, `I_z = 3`, `L = 5`. -/
theorem flexural_xy_navier_rigid_rigid_classical_witness :
    get_flexural_xy_stiffness_coefficients
      { member := { material := { elastic_modulus := 2, shear_modulus := 1 },
                    «section» := { area_x := 1, area_y := 1, area_z := 1,
                                     inertia_x := 1, inertia_y := 1, inertia_z := 3 },
                    element_type := Element1DType.navier },
        length := 5,
        hinge_start := BeamConnection.continuousEnd,
        hinge_end := BeamConnection.continuousEnd } =
      ((2 * 3 / 5 ^ 3 : ℚ)) •
      !![12, 6 * 5, -12, 6 * 5;
         6 * 5, 4 * 5 ^ 2, -6 * 5, 2 * 5 ^ 2;
         -12, -6 * 5, 12, -6 * 5;
         6 * 5, 2 * 5 ^ 2, -6 * 5, 4 * 5 ^ 2] := by
  have h := flexural_xy_navier_rigid_rigid_classical
    { member := { material := { elastic_modulus := 2, shear_modulus := 1 },
                  «section» := { area_x := 1, area_y := 1, area_z := 1,
                                   inertia_x := 1, inertia_y := 1, inertia_z := 3 },
                  element_type := Element1DType.navier },
      length := 5,
      hinge_start := BeamConnection.continuousEnd,
      hinge_end := BeamConnection.continuousEnd }
    rfl rfl rfl (by norm_num)
  simpa using h

end Framesss

namespace Framesss

/-- A concrete element used by closed witness statements: `E = 2`, `G = 3`,
`A_x = 5`, `Jt = 4`, all remaining section properties `1`, length `2`. -/
def mkTestElement (ty : Element1DType) (h1 h2 : BeamConnection) : Element1D :=
  { member := { material := { elastic_modulus := 2, shear_modulus := 3 },
                «section» := { area_x := 5, area_y := 1, area_z := 1,
                               inertia_x := 4, inertia_y := 1, inertia_z := 1 },
                element_type := ty },
    length := 2,
    hinge_start := h1,
    hinge_end := h2 }

/-- C2: `get_torsion_stiffness_coefficients` returns `(G·Jt/L)·[[1,-1],[-1,1]]`
when both ends are rigid, the 2x2 zero matrix for every other connectivity
pair, and (whenever `G·Jt/L ≠ 0`) it equals the torsional stiffness form *iff*
both ends are rigid. -/
theorem torsion_stiffness_rigid_rigid_iff (e : Element1D) :
    (e.hinge_start = BeamConnection.continuousEnd ∧
        e.hinge_end = BeamConnection.continuousEnd →
      get_torsion_stiffness_coefficients e =
        (e.member.material.shear_modulus * e.member.«section».inertia_x /
          e.length) • !![(1 : ℚ), -1; -1, 1]) ∧
    (¬(e.hinge_start = BeamConnection.continuousEnd ∧
        e.hinge_end = BeamConnection.continuousEnd) →
      get_torsion_stiffness_coefficients e = 0) ∧
    (e.member.material.shear_modulus * e.member.«section».inertia_x /
        e.length ≠ 0 →
      (get_torsion_stiffness_coefficients e =
          (e.member.material.shear_modulus * e.member.«section».inertia_x /
            e.length) • !![(1 : ℚ), -1; -1, 1] ↔
        e.hinge_start = BeamConnection.continuousEnd ∧
          e.hinge_end = BeamConnection.continuousEnd)) := by
  refine ⟨?_, ?_, ?_⟩
  · intro h
    simp [get_torsion_stiffness_coefficients, h.1, h.2]
  · intro h
    simp only [get_torsion_stiffness_coefficients]
    rw [if_neg h]
  · intro hk
    constructor
    · intro heq
      by_contra hneg
      have hzero : get_torsion_stiffness_coefficients e = 0 := by
        simp only [get_torsion_stiffness_coefficients]
        rw [if_neg hneg]
      rw [hzero] at heq
      have h00 := congrFun (congrFun heq 0) 0
      simp [Matrix.smul_apply] at h00
      exact hk h00.symm
    · intro h
      simp [get_torsion_stiffness_coefficients, h.1, h.2]

/-- Witness for `torsion_stiffness_rigid_rigid_iff`: the rigid-rigid case
yields `(G·Jt/L)·[[1,-1],[-1,1]]` and a hinged start yields the zero matrix,
at a concrete element with `G = 3`, `Jt = 4`, `L = 2`. -/
theorem torsion_stiffness_rigid_rigid_iff_witness :
    get_torsion_stiffness_coefficients
        (mkTestElement Element1DType.navier
          BeamConnection.continuousEnd BeamConnection.continuousEnd) =
      ((3 * 4 / 2 : ℚ)) • !![(1 : ℚ), -1; -1, 1] ∧
    get_torsion_stiffness_coefficients
        (mkTestElement Element1DType.navier
          BeamConnection.hingedEnd BeamConnection.continuousEnd) = 0 :=
  ⟨(torsion_stiffness_rigid_rigid_iff _).1 ⟨rfl, rfl⟩,
   (torsion_stiffness_rigid_rigid_iff _).2.1 (by simp [mkTestElement])⟩

/-- C3: with both ends hinged the flexural stiffness matrices in both planes
are exactly zero (for both beam theories, since the statement quantifies over
every element), while the axial stiffness is always
`(E·A/L)·[[1,-1],[-1,1]]` and never depends on the end connections. -/
theorem hinged_hinged_flexural_zero_axial_independent :
    (∀ e : Element1D, e.hinge_start = BeamConnection.hingedEnd →
        e.hinge_end = BeamConnection.hingedEnd →
      get_flexural_xy_stiffness_coefficients e = 0 ∧
        get_flexural_xz_stiffness_coefficients e = 0) ∧
    (∀ e : Element1D,
      get_axial_stiffness_coefficients e =
        (e.member.material.elastic_modulus * e.member.«section».area_x /
          e.length) • !![(1 : ℚ), -1; -1, 1]) ∧
    (∀ (m : MemberData) (L : ℚ) (h1 h2 h1' h2' : BeamConnection),
      get_axial_stiffness_coefficients ⟨m, L, h1, h2⟩ =
        get_axial_stiffness_coefficients ⟨m, L, h1', h2'⟩) := by
  refine ⟨?_, ?_, ?_⟩
  · intro e hs he
    constructor
    · simp [get_flexural_xy_stiffness_coefficients, hs, he]
    · simp [get_flexural_xz_stiffness_coefficients, hs, he]
  · intro e
    rfl
  · intro m L h1 h2 h1' h2'
    rfl

/-- Witness for `hinged_hinged_flexural_zero_axial_independent` at concrete
hinged-hinged Navier and Timoshenko elements (`E = 2`, `A = 5`, `L = 2`). -/
theorem hinged_hinged_flexural_zero_axial_independent_witness :
    get_flexural_xy_stiffness_coefficients
        (mkTestElement Element1DType.navier
          BeamConnection.hingedEnd BeamConnection.hingedEnd) = 0 ∧
    get_flexural_xz_stiffness_coefficients
        (mkTestElement Element1DType.timoshenko
          BeamConnection.hingedEnd BeamConnection.hingedEnd) = 0 ∧
    get_axial_stiffness_coefficients
        (mkTestElement Element1DType.navier
          BeamConnection.hingedEnd BeamConnection.hingedEnd) =
      ((2 * 5 / 2 : ℚ)) • !![(1 : ℚ), -1; -1, 1] :=
  ⟨(hinged_hinged_flexural_zero_axial_independent.1 _ rfl rfl).1,
   (hinged_hinged_flexural_zero_axial_independent.1 _ rfl rfl).2,
   hinged_hinged_flexural_zero_axial_independent.2.1 _⟩

/-- Transpose of an explicit 2x2 matrix literal. -/
theorem transpose_fin_two_explicit (a b c d : ℚ) :
    (!![a, b; c, d]).transpose = !![a, c; b, d] := by
  ext i j
  fin_cases i <;> fin_cases j <;>
    simp [Matrix.transpose_apply, Matrix.vecHead, Matrix.vecTail]

/-- Transpose of an explicit 4x4 matrix literal. -/
theorem transpose_fin_four_explicit
    (a b c d e f g h i j k l m n o p : ℚ) :
    (!![a, b, c, d; e, f, g, h; i, j, k, l; m, n, o, p]).transpose =
      !![a, e, i, m; b, f, j, n; c, g, k, o; d, h, l, p] := by
  ext x y
  fin_cases x <;> fin_cases y <;>
    simp [Matrix.transpose_apply, Matrix.vecHead, Matrix.vecTail]

/-- C10: every local stiffness sub-matrix is symmetric — for every element
(hence for both beam theories and all four connectivity pairs), the axial,
torsion and both flexural matrices equal their own transpose. -/
theorem local_stiffness_matrices_symmetric (e : Element1D) :
    (get_axial_stiffness_coefficients e).transpose = get_axial_stiffness_coefficients e ∧
    (get_torsion_stiffness_coefficients e).transpose =
      get_torsion_stiffness_coefficients e ∧
    (get_flexural_xy_stiffness_coefficients e).transpose =
      get_flexural_xy_stiffness_coefficients e ∧
    (get_flexural_xz_stiffness_coefficients e).transpose =
      get_flexural_xz_stiffness_coefficients e := by
  refine ⟨?_, ?_, ?_, ?_⟩
  · simp only [get_axial_stiffness_coefficients, Matrix.transpose_smul,
      transpose_fin_two_explicit]
  · simp only [get_torsion_stiffness_coefficients]
    split
    · simp only [Matrix.transpose_smul, transpose_fin_two_explicit]
    · simp only [Matrix.transpose_zero]
  · simp only [get_flexural_xy_stiffness_coefficients]
    split <;> simp only [transpose_fin_four_explicit, Matrix.transpose_zero]
  · simp only [get_flexural_xz_stiffness_coefficients]
    split <;> simp only [transpose_fin_four_explicit, Matrix.transpose_zero]

end Framesss

namespace Framesss

/-- `np.unique` building block: insert a value into a strictly sorted list,
keeping the list strictly sorted and dropping the value when already present. -/
def insertSorted (x : ℚ) : List ℚ → List ℚ
  | [] => [x]
  | y :: ys =>
      if x < y then x :: y :: ys
      else if x = y then y :: ys
      else y :: insertSorted x ys

/-- Model of `np.unique`: the sorted list of the distinct values of `l`. -/
def sortedUnique (l : List ℚ) : List ℚ := l.foldr insertSorted []

theorem mem_insertSorted (a x : ℚ) (l : List ℚ) :
    a ∈ insertSorted x l ↔ a = x ∨ a ∈ l := by
  induction l with
  | nil => simp [insertSorted]
  | cons y ys ih =>
      simp only [insertSorted]
      by_cases h1 : x < y
      · simp [h1]
      · by_cases h2 : x = y
        · simp only [if_neg h1, if_pos h2, List.mem_cons]
          refine ⟨fun h => Or.inr h, fun h => ?_⟩
          rcases h with h | h
          · exact Or.inl (h.trans h2)
          · exact h
        · simp [h1, h2, ih]
          tauto

theorem pairwise_insertSorted (x : ℚ) (l : List ℚ)
    (hl : l.Pairwise (· < ·)) : (insertSorted x l).Pairwise (· < ·) := by
  induction l with
  | nil => simp [insertSorted]
  | cons y ys ih =>
      rw [List.pairwise_cons] at hl
      obtain ⟨hy, hys⟩ := hl
      simp only [insertSorted]
      by_cases h1 : x < y
      · simp only [if_pos h1, List.pairwise_cons]
        refine ⟨?_, hy, hys⟩
        intro b hb
        rcases List.mem_cons.mp hb with hb | hb
        · rw [hb]; exact h1
        · exact lt_trans h1 (hy b hb)
      · by_cases h2 : x = y
        · simp only [if_neg h1, if_pos h2, List.pairwise_cons]
          exact ⟨hy, hys⟩
        · have hyx : y < x := lt_of_le_of_ne (not_lt.mp h1) (Ne.symm h2)
          simp only [if_neg h1, if_neg h2, List.pairwise_cons]
          refine ⟨?_, ih hys⟩
          intro b hb
          rcases (mem_insertSorted b x ys).mp hb with hb | hb
          · rw [hb]; exact hyx
          · exact hy b hb

theorem sortedUnique_pairwise (l : List ℚ) :
    (sortedUnique l).Pairwise (· < ·) := by
  induction l with
  | nil => simp [sortedUnique]
  | cons x xs ih => exact pairwise_insertSorted x _ ih

theorem mem_sortedUnique (a : ℚ) (l : List ℚ) :
    a ∈ sortedUnique l ↔ a ∈ l := by
  induction l with
  | nil => simp [sortedUnique]
  | cons x xs ih =>
      have hstep : sortedUnique (x :: xs) = insertSorted x (sortedUnique xs) := rfl
      rw [hstep, mem_insertSorted, ih, List.mem_cons]

/-- In a strictly sorted list, an element that is a lower bound of the list
is its head. -/
theorem pairwise_head_eq_min (l : List ℚ) (a : ℚ)
    (hp : l.Pairwise (· < ·)) (ha : a ∈ l) (hmin : ∀ b ∈ l, a ≤ b) :
    l.head? = some a := by
  cases l with
  | nil => cases ha
  | cons c t =>
      rw [List.pairwise_cons] at hp
      rcases List.mem_cons.mp ha with h | h
      · simp [h]
      · have hca : c < a := hp.1 a h
        have hac : a ≤ c := hmin c (List.mem_cons_self c t)
        exact absurd hca (not_lt.mpr hac)

/-- In a strictly sorted list, an element that is an upper bound of the list
is its last entry. -/
theorem pairwise_getLast_eq_max (l : List ℚ) (a : ℚ)
    (hp : l.Pairwise (· < ·)) (ha : a ∈ l) (hmax : ∀ b ∈ l, b ≤ a) :
    l.getLast? = some a := by
  induction l with
  | nil => cases ha
  | cons c t ih =>
      rw [List.pairwise_cons] at hp
      cases t with
      | nil =>
          rcases List.mem_cons.mp ha with h | h
          · simp [h]
          · cases h
      | cons d u =>
          have hne : d :: u ≠ [] := List.cons_ne_nil d u
          rw [List.getLast?_cons_cons]
          rcases List.mem_cons.mp ha with h | h
          · exfalso
            have hcd : c < d := hp.1 d (List.mem_cons_self d u)
            have hdc : d ≤ a := hmax d (List.mem_cons.mpr (Or.inr (List.mem_cons_self d u)))
            rw [h] at hdc
            exact absurd hcd (not_lt.mpr hdc)
          · exact ih hp.2 h (fun b hb => hmax b (List.mem_cons.mpr (Or.inr hb)))

end Framesss

namespace Framesss

/-- The slice of `Member1D` state consumed by `discretize`: the member length,
the member end connections and the accumulated discontinuity positions
(`x_discontinuities` starts as `[0.0, length]` and every `add_node`,
`add_point_load`, `add_distributed_load` and `add_thermal_load` call appends
positions to it). -/
structure MemberDiscretization where
  length : ℚ
  hinge_start : BeamConnection
  hinge_end : BeamConnection
  x_discontinuities : List ℚ

/-- A generated element, identified by its local span `[x_start, x_end]`
within the parent member and its per-end connectivity. -/
structure GeneratedElement where
  x_start : ℚ
  x_end : ℚ
  hinge_start : BeamConnection
  hinge_end : BeamConnection
deriving DecidableEq, Repr

/-- `Member1D.discretize` step 1:
`self.x_discontinuities = np.unique(self.x_discontinuities)`. -/
def discretized_positions (m : MemberDiscretization) : List ℚ :=
  sortedUnique m.x_discontinuities

/-- `Member1D.generate_nodes`: one generated node per discontinuity position
(both branches of the reuse-or-synthesize conditional append exactly one
node); a node is represented by its position along the member local axis. -/
def generate_nodes (m : MemberDiscretization) : List ℚ :=
  discretized_positions m

/-- The consecutive pairs `zip(xs[:-1], xs[1:])` that
`Member1D.generate_elements` iterates over. -/
def consecutivePairs (xs : List ℚ) : List (ℚ × ℚ) :=
  List.zip xs.dropLast xs.tail

/-- `Member1D.generate_elements`: one element between each consecutive pair
of generated nodes; interior elements are continuous at both ends, the first
element inherits the member start hinge and the last the member end hinge. -/
def generate_elements (m : MemberDiscretization) : List GeneratedElement :=
  let xs := discretized_positions m
  (consecutivePairs xs).enum.map fun p =>
    { x_start := p.2.1
      x_end := p.2.2
      hinge_start :=
        if p.1 = 0 then m.hinge_start else BeamConnection.continuousEnd
      hinge_end :=
        if p.1 = xs.length - 2 then m.hinge_end else BeamConnection.continuousEnd }

theorem consecutivePairs_nil : consecutivePairs [] = [] := rfl

theorem consecutivePairs_singleton (x : ℚ) : consecutivePairs [x] = [] := rfl

theorem consecutivePairs_cons_cons (x y : ℚ) (rest : List ℚ) :
    consecutivePairs (x :: y :: rest) = (x, y) :: consecutivePairs (y :: rest) := by
  cases rest with
  | nil => rfl
  | cons z rs => simp [consecutivePairs, List.dropLast]

theorem consecutivePairs_length (xs : List ℚ) :
    (consecutivePairs xs).length = xs.length - 1 := by
  induction xs with
  | nil => rfl
  | cons x t ih =>
      cases t with
      | nil => rfl
      | cons y rest =>
          rw [consecutivePairs_cons_cons]
          simp only [List.length_cons]
          rw [ih]
          simp

theorem consecutivePairs_chain (xs : List ℚ) :
    (consecutivePairs xs).Chain' (fun p q => p.2 = q.1) := by
  induction xs with
  | nil => simp [consecutivePairs_nil]
  | cons x t ih =>
      cases t with
      | nil => simp [consecutivePairs_singleton]
      | cons y rest =>
          rw [consecutivePairs_cons_cons]
          cases rest with
          | nil => simp [consecutivePairs_singleton]
          | cons z rs =>
              rw [consecutivePairs_cons_cons] at ih ⊢
              exact List.Chain'.cons rfl (consecutivePairs_cons_cons y z rs ▸ ih)

theorem consecutivePairs_lt (xs : List ℚ) (hx : xs.Pairwise (· < ·)) :
    ∀ p ∈ consecutivePairs xs, p.1 < p.2 := by
  induction xs with
  | nil => simp [consecutivePairs_nil]
  | cons x t ih =>
      cases t with
      | nil => simp [consecutivePairs_singleton]
      | cons y rest =>
          rw [consecutivePairs_cons_cons]
          intro p hp
          rw [List.pairwise_cons] at hx
          rcases List.mem_cons.mp hp with h | h
          · rw [h]
            exact hx.1 y (List.mem_cons_self y rest)
          · exact ih hx.2 p h

theorem consecutivePairs_getLast (xs : List ℚ) (h2 : 2 ≤ xs.length) :
    (consecutivePairs xs).getLast?.map Prod.snd = xs.getLast? := by
  induction xs with
  | nil => simp at h2
  | cons x t ih =>
      cases t with
      | nil => simp at h2
      | cons y rest =>
          rw [consecutivePairs_cons_cons]
          cases rest with
          | nil => simp [consecutivePairs_singleton]
          | cons z rs =>
              rw [consecutivePairs_cons_cons]
              rw [List.getLast?_cons_cons, List.getLast?_cons_cons]
              rw [← consecutivePairs_cons_cons]
              exact ih (by simp)

end Framesss

namespace Framesss

/-- C4: after `discretize()` (with every appended discontinuity position —
interior nodes and point/distributed/thermal load ends — lying on the member,
and `0` and `length` present from `__init__`), the generated elements form a
contiguous, gap-free, non-overlapping cover of `[0, length]`: the first
element starts at `0`, the last ends at `length`, each element ends where the
next starts, every element has positive length, and the number of generated
nodes is the number of generated elements plus one. -/
theorem discretize_elements_cover (m : MemberDiscretization)
    (hL : 0 < m.length)
    (h0 : (0 : ℚ) ∈ m.x_discontinuities)
    (hLmem : m.length ∈ m.x_discontinuities)
    (hbound : ∀ x ∈ m.x_discontinuities, 0 ≤ x ∧ x ≤ m.length) :
    ((generate_elements m).head?.map GeneratedElement.x_start = some 0) ∧
    ((generate_elements m).getLast?.map GeneratedElement.x_end =
      some m.length) ∧
    (generate_elements m).Chain' (fun e e' => e.x_end = e'.x_start) ∧
    (∀ el ∈ generate_elements m, el.x_start < el.x_end) ∧
    (generate_nodes m).length = (generate_elements m).length + 1 := by
  have hPW : (discretized_positions m).Pairwise (· < ·) :=
    sortedUnique_pairwise _
  have h0x : (0 : ℚ) ∈ discretized_positions m :=
    (mem_sortedUnique _ _).mpr h0
  have hLx : m.length ∈ discretized_positions m :=
    (mem_sortedUnique _ _).mpr hLmem
  have hbx : ∀ b ∈ discretized_positions m, 0 ≤ b ∧ b ≤ m.length :=
    fun b hb => hbound b ((mem_sortedUnique _ _).mp hb)
  have hhead : (discretized_positions m).head? = some 0 :=
    pairwise_head_eq_min _ 0 hPW h0x (fun b hb => (hbx b hb).1)
  have hlast : (discretized_positions m).getLast? = some m.length :=
    pairwise_getLast_eq_max _ m.length hPW hLx (fun b hb => (hbx b hb).2)
  have hlen2 : 2 ≤ (discretized_positions m).length := by
    rcases hxe : discretized_positions m with _ | ⟨a, _ | ⟨b, u⟩⟩
    · rw [hxe] at h0x; cases h0x
    · rw [hxe] at hhead hlast
      simp only [List.head?_cons, Option.some.injEq] at hhead
      simp only [List.getLast?_singleton, Option.some.injEq] at hlast
      rw [← hhead, ← hlast] at hL
      exact absurd hL (lt_irrefl a)
    · simp
  have hge : generate_elements m =
      (consecutivePairs (discretized_positions m)).enum.map
        (fun p =>
          { x_start := p.2.1
            x_end := p.2.2
            hinge_start :=
              if p.1 = 0 then m.hinge_start else BeamConnection.continuousEnd
            hinge_end :=
              if p.1 = (discretized_positions m).length - 2 then m.hinge_end
              else BeamConnection.continuousEnd : GeneratedElement }) := rfl
  refine ⟨?_, ?_, ?_, ?_, ?_⟩
  · -- first element starts at 0
    rcases hxe : discretized_positions m with _ | ⟨a, _ | ⟨b, u⟩⟩
    · rw [hxe] at h0x; cases h0x
    · rw [hxe] at hlen2; simp at hlen2
    · rw [hxe] at hhead
      simp only [List.head?_cons, Option.some.injEq] at hhead
      rw [hge, hxe, consecutivePairs_cons_cons]
      simp [List.enum, hhead]
  · -- last element ends at length
    rw [hge, List.getLast?_map, Option.map_map]
    have h1 : ((consecutivePairs (discretized_positions m)).enum.getLast?).map
        Prod.snd = (consecutivePairs (discretized_positions m)).getLast? := by
      rw [← List.getLast?_map, List.enum_map_snd]
    have h2 := consecutivePairs_getLast (discretized_positions m) hlen2
    rw [hlast] at h2
    have h3 : ((consecutivePairs (discretized_positions m)).enum.getLast?).map
        (fun p => p.2.2) = some m.length := by
      rw [show (fun p : ℕ × ℚ × ℚ => p.2.2) =
            (Prod.snd ∘ (Prod.snd : ℕ × ℚ × ℚ → ℚ × ℚ)) from rfl]
      rw [← Option.map_map, h1]
      exact h2
    exact h3
  · -- contiguity: each element ends where the next starts
    rw [hge, List.chain'_map]
    have hc := consecutivePairs_chain (discretized_positions m)
    have he : (consecutivePairs (discretized_positions m)).enum.map Prod.snd =
        consecutivePairs (discretized_positions m) := List.enum_map_snd _
    rw [← he] at hc
    rw [List.chain'_map] at hc
    exact hc.imp (fun a b h => h)
  · -- positive element length
    intro el hel
    rw [hge] at hel
    rcases List.mem_map.mp hel with ⟨ip, hip, hfe⟩
    have hsnd : ip.2 ∈ consecutivePairs (discretized_positions m) := by
      have := List.mem_map_of_mem Prod.snd hip
      rwa [List.enum_map_snd] at this
    have := consecutivePairs_lt _ hPW ip.2 hsnd
    rw [← hfe]
    exact this
  · -- node count = element count + 1
    rw [hge]
    simp only [List.length_map, List.enum_length, generate_nodes]
    rw [consecutivePairs_length]
    omega

/-- Witness for `discretize_elements_cover` at a concrete member of length 10
with discontinuities accumulated from an interior node at 4 and a distributed
load over `[2, 7]` (the initial `[0, 10]` plus appended positions, with the
load start appended twice to exercise deduplication). -/
theorem discretize_elements_cover_witness :
    ((generate_elements
        { length := 10, hinge_start := BeamConnection.hingedEnd,
          hinge_end := BeamConnection.continuousEnd,
          x_discontinuities := [0, 10, 4, 2, 7, 2] }).head?.map
      GeneratedElement.x_start = some 0) ∧
    ((generate_elements
        { length := 10, hinge_start := BeamConnection.hingedEnd,
          hinge_end := BeamConnection.continuousEnd,
          x_discontinuities := [0, 10, 4, 2, 7, 2] }).getLast?.map
      GeneratedElement.x_end = some 10) ∧
    (generate_elements
        { length := 10, hinge_start := BeamConnection.hingedEnd,
          hinge_end := BeamConnection.continuousEnd,
          x_discontinuities := [0, 10, 4, 2, 7, 2] }).Chain'
      (fun e e' => e.x_end = e'.x_start) ∧
    (generate_nodes
        { length := 10, hinge_start := BeamConnection.hingedEnd,
          hinge_end := BeamConnection.continuousEnd,
          x_discontinuities := [0, 10, 4, 2, 7, 2] }).length =
      (generate_elements
        { length := 10, hinge_start := BeamConnection.hingedEnd,
          hinge_end := BeamConnection.continuousEnd,
          x_discontinuities := [0, 10, 4, 2, 7, 2] }).length + 1 := by
  have h := discretize_elements_cover
    { length := 10, hinge_start := BeamConnection.hingedEnd,
      hinge_end := BeamConnection.continuousEnd,
      x_discontinuities := [0, 10, 4, 2, 7, 2] }
    (by norm_num) (by simp) (by simp)
    (by intro x hx; fin_cases hx <;> norm_num)
  exact ⟨h.1, h.2.1, h.2.2.1, h.2.2.2.2⟩

end Framesss

namespace Framesss

/-- Polynomial evaluation for a coefficient list in ascending degree order —
the convention of `numpy.polynomial.polynomial`, whose `polyroots` receives
`[b, 2*a]` for the quadratic derivative `2a·x + b` and `[c, 2*b, 3*a]` for the
cubic derivative: `p(x) = c₀ + c₁·x + c₂·x² + …`. -/
def polyEval (coefficients : List ℚ) (x : ℚ) : ℚ :=
  (coefficients.enum.map (fun p => p.2 * x ^ p.1)).sum

/-- `get_suspicious_points` (module-level helper of `fea/element_1d.py`), with
`np.polynomial.polynomial.polyroots` abstracted by its documented behaviour:
the parameter `roots` stands for the real roots the root-finder returns for
`coefficients`.  The function keeps the roots lying in `[0, length]`
(`x_max.real[np.isreal(x_max) * (0 <= x_max) * (x_max <= length)]`), inserts
`0.0` at the front, appends `length`, and returns `np.unique` of the result. -/
def get_suspicious_points (roots : List ℚ) (length : ℚ) : List ℚ :=
  sortedUnique
    (0 :: (roots.filter (fun x => decide (0 ≤ x ∧ x ≤ length))) ++ [length])

/-- C8: for every polynomial coefficient list and element length `L > 0`,
`get_suspicious_points` (with the root-finder returning roots of the
polynomial) contains `0` and `L`, is strictly increasing with no duplicates,
has every entry in `[0, L]`, and every interior entry (neither `0` nor `L`)
is a real root of the polynomial. -/
theorem get_suspicious_points_spec (coefficients roots : List ℚ)
    (length : ℚ) (hL : 0 < length)
    (hroots : ∀ r ∈ roots, polyEval coefficients r = 0) :
    (0 : ℚ) ∈ get_suspicious_points roots length ∧
    length ∈ get_suspicious_points roots length ∧
    (get_suspicious_points roots length).Pairwise (· < ·) ∧
    (∀ x ∈ get_suspicious_points roots length, 0 ≤ x ∧ x ≤ length) ∧
    (∀ x ∈ get_suspicious_points roots length, x ≠ 0 → x ≠ length →
      polyEval coefficients x = 0) := by
  refine ⟨?_, ?_, sortedUnique_pairwise _, ?_, ?_⟩
  · rw [get_suspicious_points, mem_sortedUnique]
    exact List.mem_cons_self _ _
  · rw [get_suspicious_points, mem_sortedUnique]
    exact List.mem_cons.mpr (Or.inr (List.mem_append_right _ (List.mem_singleton.mpr rfl)))
  · intro x hx
    rw [get_suspicious_points, mem_sortedUnique] at hx
    rcases List.mem_cons.mp hx with h | h
    · rw [h]; exact ⟨le_refl 0, le_of_lt hL⟩
    · rcases List.mem_append.mp h with h | h
      · have := List.of_mem_filter h
        exact of_decide_eq_true this
      · rw [List.mem_singleton.mp h]
        exact ⟨le_of_lt hL, le_refl length⟩
  · intro x hx hx0 hxL
    rw [get_suspicious_points, mem_sortedUnique] at hx
    rcases List.mem_cons.mp hx with h | h
    · exact absurd h hx0
    · rcases List.mem_append.mp h with h | h
      · exact hroots x (List.mem_of_mem_filter h)
      · exact absurd (List.mem_singleton.mp h) hxL

/-- Witness for `get_suspicious_points_spec`: the polynomial `x - 2`
(coefficients `[-2, 1]`), root list `[2]`, element length `3`; the result is
`[0, 2, 3]`. -/
theorem get_suspicious_points_spec_witness :
    (0 : ℚ) ∈ get_suspicious_points [2] 3 ∧
    (3 : ℚ) ∈ get_suspicious_points [2] 3 ∧
    (get_suspicious_points [(2 : ℚ)] 3).Pairwise (· < ·) := by
  have h := get_suspicious_points_spec [-2, 1] [2] 3 (by norm_num)
    (by
      intro r hr
      rw [List.mem_singleton.mp hr]
      norm_num [polyEval, List.enum, List.enumFrom])
  exact ⟨h.1, h.2.1, h.2.2.1⟩

end Framesss

namespace Framesss

/-- The recursive core of `Model.assemble_dof_indices`: walk the DOF
connectivity cells in visit order (outer loop over nodes, inner loop over the
node-local DOFs), replacing each boundary-condition tag by the next equation
number of its class — tag `0` (free) takes `count_free`, tag `2` (spring)
takes `count_spring`, every other tag (fixed / fictitious-fixed) takes
`count_fixed`. -/
def assignDofs : List ℤ → ℤ → ℤ → ℤ → List ℤ
  | [], _, _, _ => []
  | t :: ts, count_free, count_spring, count_fixed =>
      if t = 0 then
        count_free :: assignDofs ts (count_free + 1) count_spring count_fixed
      else if t = 2 then
        count_spring :: assignDofs ts count_free (count_spring + 1) count_fixed
      else
        count_fixed :: assignDofs ts count_free count_spring (count_fixed + 1)

/-- `Model.assemble_dof_indices`: the counters start at
`count_free = 0`, `count_spring = neq_free`,
`count_fixed = neq_free + neq_spring`. -/
def assemble_dof_indices (tags : List ℤ) (neq_free neq_spring : ℕ) : List ℤ :=
  assignDofs tags 0 (neq_free : ℤ) ((neq_free : ℤ) + (neq_spring : ℤ))

/-- Number of cells tagged free (`== 0`). -/
def countFree (tags : List ℤ) : ℕ := tags.countP (fun t => decide (t = 0))

/-- Number of cells tagged spring (`== 2`). -/
def countSpring (tags : List ℤ) : ℕ := tags.countP (fun t => decide (t = 2))

/-- Number of cells with any other tag (fixed, including fictitious-fixed). -/
def countFixed (tags : List ℤ) : ℕ :=
  tags.countP (fun t => decide (t ≠ 0 ∧ t ≠ 2))

/-- Equation numbers assigned to the free-tagged cells, in visit order. -/
def cellsFree (tags vals : List ℤ) : List ℤ :=
  ((tags.zip vals).filter (fun c => decide (c.1 = 0))).map Prod.snd

/-- Equation numbers assigned to the spring-tagged cells, in visit order. -/
def cellsSpring (tags vals : List ℤ) : List ℤ :=
  ((tags.zip vals).filter (fun c => decide (c.1 = 2))).map Prod.snd

/-- Equation numbers assigned to the fixed-tagged cells, in visit order. -/
def cellsFixed (tags vals : List ℤ) : List ℤ :=
  ((tags.zip vals).filter (fun c => decide (c.1 ≠ 0 ∧ c.1 ≠ 2))).map Prod.snd

/-- `n` consecutive integers starting at `a`. -/
def rangeZ (a : ℤ) (n : ℕ) : List ℤ :=
  (List.range n).map (fun i : ℕ => a + (i : ℤ))

theorem rangeZ_succ (a : ℤ) (n : ℕ) :
    rangeZ a (n + 1) = a :: rangeZ (a + 1) n := by
  simp only [rangeZ, List.range_succ_eq_map, List.map_cons, List.map_map,
    Nat.cast_zero, add_zero]
  refine congrArg (List.cons a) ?_
  refine List.map_congr_left ?_
  intro i _
  simp only [Function.comp_apply]
  push_cast
  ring

theorem mem_rangeZ (x a : ℤ) (n : ℕ) :
    x ∈ rangeZ a n ↔ a ≤ x ∧ x < a + n := by
  simp only [rangeZ, List.mem_map, List.mem_range]
  constructor
  · rintro ⟨i, hi, rfl⟩
    omega
  · rintro ⟨h1, h2⟩
    exact ⟨(x - a).toNat, by omega, by omega⟩

theorem nodup_rangeZ (a : ℤ) (n : ℕ) : (rangeZ a n).Nodup := by
  refine List.Nodup.map ?_ (List.nodup_range _)
  intro i j h
  have h' : a + (i : ℤ) = a + (j : ℤ) := h
  omega

end Framesss

namespace Framesss

theorem cellsFree_cons (t v : ℤ) (ts vs : List ℤ) :
    cellsFree (t :: ts) (v :: vs) =
      if t = 0 then v :: cellsFree ts vs else cellsFree ts vs := by
  by_cases h : t = 0 <;> simp [cellsFree, List.filter_cons, h]

theorem cellsSpring_cons (t v : ℤ) (ts vs : List ℤ) :
    cellsSpring (t :: ts) (v :: vs) =
      if t = 2 then v :: cellsSpring ts vs else cellsSpring ts vs := by
  by_cases h : t = 2 <;> simp [cellsSpring, List.filter_cons, h]

theorem cellsFixed_cons (t v : ℤ) (ts vs : List ℤ) :
    cellsFixed (t :: ts) (v :: vs) =
      if t ≠ 0 ∧ t ≠ 2 then v :: cellsFixed ts vs else cellsFixed ts vs := by
  by_cases h : t ≠ 0 ∧ t ≠ 2 <;> simp [cellsFixed, List.filter_cons, h]

theorem countFree_cons (t : ℤ) (ts : List ℤ) :
    countFree (t :: ts) = countFree ts + if t = 0 then 1 else 0 := by
  by_cases h : t = 0 <;> simp [countFree, List.countP_cons, h]

theorem countSpring_cons (t : ℤ) (ts : List ℤ) :
    countSpring (t :: ts) = countSpring ts + if t = 2 then 1 else 0 := by
  by_cases h : t = 2 <;> simp [countSpring, List.countP_cons, h]

theorem countFixed_cons (t : ℤ) (ts : List ℤ) :
    countFixed (t :: ts) = countFixed ts + if t ≠ 0 ∧ t ≠ 2 then 1 else 0 := by
  by_cases h : t ≠ 0 ∧ t ≠ 2 <;> simp [countFixed, List.countP_cons, h]

theorem counts_partition (tags : List ℤ) :
    countFree tags + countSpring tags + countFixed tags = tags.length := by
  induction tags with
  | nil => rfl
  | cons t ts ih =>
      rw [countFree_cons, countSpring_cons, countFixed_cons, List.length_cons]
      by_cases h0 : t = 0
      · have h2 : ¬(t = 2) := by omega
        have h3 : ¬(t ≠ 0 ∧ t ≠ 2) := by tauto
        rw [if_pos h0, if_neg h2, if_neg h3]
        omega
      · by_cases h2 : t = 2
        · have h3 : ¬(t ≠ 0 ∧ t ≠ 2) := by tauto
          rw [if_neg h0, if_pos h2, if_neg h3]
          omega
        · rw [if_neg h0, if_neg h2, if_pos ⟨h0, h2⟩]
          omega

theorem assignDofs_length (tags : List ℤ) :
    ∀ cf cs cx, (assignDofs tags cf cs cx).length = tags.length := by
  induction tags with
  | nil => intro cf cs cx; rfl
  | cons t ts ih =>
      intro cf cs cx
      by_cases h0 : t = 0
      · simp [assignDofs, h0, ih]
      · by_cases h2 : t = 2 <;> simp [assignDofs, h0, h2, ih]

theorem assignDofs_cellsFree (tags : List ℤ) :
    ∀ cf cs cx,
      cellsFree tags (assignDofs tags cf cs cx) = rangeZ cf (countFree tags) := by
  induction tags with
  | nil => intro cf cs cx; rfl
  | cons t ts ih =>
      intro cf cs cx
      by_cases h0 : t = 0
      · simp only [assignDofs, if_pos h0]
        rw [cellsFree_cons, if_pos h0, countFree_cons, if_pos h0, rangeZ_succ,
          ih]
      · by_cases h2 : t = 2
        · simp only [assignDofs, if_neg h0, if_pos h2]
          rw [cellsFree_cons, if_neg h0, countFree_cons, if_neg h0, add_zero,
            ih]
        · simp only [assignDofs, if_neg h0, if_neg h2]
          rw [cellsFree_cons, if_neg h0, countFree_cons, if_neg h0, add_zero,
            ih]

theorem assignDofs_cellsSpring (tags : List ℤ) :
    ∀ cf cs cx,
      cellsSpring tags (assignDofs tags cf cs cx) =
        rangeZ cs (countSpring tags) := by
  induction tags with
  | nil => intro cf cs cx; rfl
  | cons t ts ih =>
      intro cf cs cx
      by_cases h0 : t = 0
      · have h2 : ¬(t = 2) := by omega
        simp only [assignDofs, if_pos h0]
        rw [cellsSpring_cons, if_neg h2, countSpring_cons, if_neg h2, add_zero,
          ih]
      · by_cases h2 : t = 2
        · simp only [assignDofs, if_neg h0, if_pos h2]
          rw [cellsSpring_cons, if_pos h2, countSpring_cons, if_pos h2,
            rangeZ_succ, ih]
        · simp only [assignDofs, if_neg h0, if_neg h2]
          rw [cellsSpring_cons, if_neg h2, countSpring_cons, if_neg h2,
            add_zero, ih]

theorem assignDofs_cellsFixed (tags : List ℤ) :
    ∀ cf cs cx,
      cellsFixed tags (assignDofs tags cf cs cx) =
        rangeZ cx (countFixed tags) := by
  induction tags with
  | nil => intro cf cs cx; rfl
  | cons t ts ih =>
      intro cf cs cx
      by_cases h0 : t = 0
      · have h3 : ¬(t ≠ 0 ∧ t ≠ 2) := by tauto
        simp only [assignDofs, if_pos h0]
        rw [cellsFixed_cons, if_neg h3, countFixed_cons, if_neg h3, add_zero,
          ih]
      · by_cases h2 : t = 2
        · have h3 : ¬(t ≠ 0 ∧ t ≠ 2) := by tauto
          simp only [assignDofs, if_neg h0, if_pos h2]
          rw [cellsFixed_cons, if_neg h3, countFixed_cons, if_neg h3, add_zero,
            ih]
        · simp only [assignDofs, if_neg h0, if_neg h2]
          rw [cellsFixed_cons, if_pos ⟨h0, h2⟩, countFixed_cons,
            if_pos ⟨h0, h2⟩, rangeZ_succ, ih]

end Framesss

namespace Framesss

theorem assignDofs_mem_bounds (tags : List ℤ) :
    ∀ cf cs cx x, x ∈ assignDofs tags cf cs cx →
      (cf ≤ x ∧ x < cf + countFree tags) ∨
      (cs ≤ x ∧ x < cs + countSpring tags) ∨
      (cx ≤ x ∧ x < cx + countFixed tags) := by
  induction tags with
  | nil => intro cf cs cx x hx; cases hx
  | cons t ts ih =>
      intro cf cs cx x hx
      rw [countFree_cons, countSpring_cons, countFixed_cons]
      by_cases h0 : t = 0
      · have h2 : ¬(t = 2) := by omega
        have h3 : ¬(t ≠ 0 ∧ t ≠ 2) := by tauto
        rw [if_pos h0, if_neg h2, if_neg h3]
        simp only [assignDofs, if_pos h0] at hx
        rcases List.mem_cons.mp hx with h | h
        · left
          subst h
          push_cast
          omega
        · rcases ih (cf + 1) cs cx x h with h' | h' | h'
          · left; push_cast at h' ⊢; omega
          · right; left; push_cast at h' ⊢; omega
          · right; right; push_cast at h' ⊢; omega
      · by_cases h2 : t = 2
        · have h3 : ¬(t ≠ 0 ∧ t ≠ 2) := by tauto
          rw [if_neg h0, if_pos h2, if_neg h3]
          simp only [assignDofs, if_neg h0, if_pos h2] at hx
          rcases List.mem_cons.mp hx with h | h
          · right; left
            subst h
            push_cast
            omega
          · rcases ih cf (cs + 1) cx x h with h' | h' | h'
            · left; push_cast at h' ⊢; omega
            · right; left; push_cast at h' ⊢; omega
            · right; right; push_cast at h' ⊢; omega
        · rw [if_neg h0, if_neg h2, if_pos ⟨h0, h2⟩]
          simp only [assignDofs, if_neg h0, if_neg h2] at hx
          rcases List.mem_cons.mp hx with h | h
          · right; right
            subst h
            push_cast
            omega
          · rcases ih cf cs (cx + 1) x h with h' | h' | h'
            · left; push_cast at h' ⊢; omega
            · right; left; push_cast at h' ⊢; omega
            · right; right; push_cast at h' ⊢; omega

theorem assignDofs_nodup (tags : List ℤ) :
    ∀ cf cs cx, cf + countFree tags ≤ cs → cs + countSpring tags ≤ cx →
      (assignDofs tags cf cs cx).Nodup := by
  induction tags with
  | nil => intro cf cs cx _ _; exact List.nodup_nil
  | cons t ts ih =>
      intro cf cs cx hfs hsx
      rw [countFree_cons] at hfs
      rw [countSpring_cons] at hsx
      by_cases h0 : t = 0
      · have h2 : ¬(t = 2) := by omega
        rw [if_pos h0] at hfs
        rw [if_neg h2] at hsx
        simp only [assignDofs, if_pos h0]
        rw [List.nodup_cons]
        refine ⟨?_, ih (cf + 1) cs cx (by omega) hsx⟩
        intro hmem
        rcases assignDofs_mem_bounds ts (cf + 1) cs cx cf hmem with h | h | h
        · omega
        · omega
        · omega
      · by_cases h2 : t = 2
        · rw [if_neg h0] at hfs
          rw [if_pos h2] at hsx
          simp only [assignDofs, if_neg h0, if_pos h2]
          rw [List.nodup_cons]
          refine ⟨?_, ih cf (cs + 1) cx (by omega)
            (by omega)⟩
          intro hmem
          rcases assignDofs_mem_bounds ts cf (cs + 1) cx cs hmem with h | h | h
          · omega
          · omega
          · omega
        · rw [if_neg h0] at hfs
          rw [if_neg h2] at hsx
          simp only [assignDofs, if_neg h0, if_neg h2]
          rw [List.nodup_cons]
          refine ⟨?_, ih cf cs (cx + 1) (by omega)
            (by omega)⟩
          intro hmem
          rcases assignDofs_mem_bounds ts cf cs (cx + 1) cx hmem with h | h | h
          · omega
          · omega
          · omega

end Framesss

namespace Framesss

/-- C5: after `assemble_dof_indices` runs over connectivity cells tagged
`0` = free, `2` = spring, anything else = fixed/fictitious-fixed (flattened
in visit order: nodes outer, node-local DOFs inner), with `neq_free` and
`neq_spring` equal to the respective tag counts, every cell holds a distinct
equation number: free cells receive `0 .. neq_free-1`, spring cells
`neq_free .. neq_free+neq_spring-1`, and fixed cells the remaining numbers
up to `neq-1`, in a single pass. -/
theorem assemble_dof_indices_spec (tags : List ℤ) (neq_free neq_spring : ℕ)
    (hf : neq_free = countFree tags) (hs : neq_spring = countSpring tags) :
    cellsFree tags (assemble_dof_indices tags neq_free neq_spring) =
      rangeZ 0 neq_free ∧
    cellsSpring tags (assemble_dof_indices tags neq_free neq_spring) =
      rangeZ (neq_free : ℤ) neq_spring ∧
    cellsFixed tags (assemble_dof_indices tags neq_free neq_spring) =
      rangeZ ((neq_free : ℤ) + (neq_spring : ℤ)) (countFixed tags) ∧
    (assemble_dof_indices tags neq_free neq_spring).Nodup ∧
    (∀ x ∈ assemble_dof_indices tags neq_free neq_spring,
      0 ≤ x ∧ x < (tags.length : ℤ)) ∧
    (assemble_dof_indices tags neq_free neq_spring).length = tags.length := by
  subst hf hs
  refine ⟨?_, ?_, ?_, ?_, ?_, assignDofs_length tags _ _ _⟩
  · rw [assemble_dof_indices, assignDofs_cellsFree]
  · rw [assemble_dof_indices, assignDofs_cellsSpring]
  · rw [assemble_dof_indices, assignDofs_cellsFixed]
  · exact assignDofs_nodup tags 0 _ _ (by omega) (by omega)
  · intro x hx
    have hpart := counts_partition tags
    rcases assignDofs_mem_bounds tags 0 _ _ x hx with h | h | h <;> omega

/-- Witness for `assemble_dof_indices_spec` on the tag list
`[1, 0, 2, 0, 3]` (fixed, free, spring, free, fictitious-fixed) with
`neq_free = 2` and `neq_spring = 1`: free cells receive `[0, 1]`,
the spring cell `[2]`, fixed cells `[3, 4]`. -/
theorem assemble_dof_indices_spec_witness :
    cellsFree [1, 0, 2, 0, 3] (assemble_dof_indices [1, 0, 2, 0, 3] 2 1) =
      rangeZ 0 2 ∧
    cellsSpring [1, 0, 2, 0, 3] (assemble_dof_indices [1, 0, 2, 0, 3] 2 1) =
      rangeZ ((2 : ℕ) : ℤ) 1 ∧
    cellsFixed [1, 0, 2, 0, 3] (assemble_dof_indices [1, 0, 2, 0, 3] 2 1) =
      rangeZ (((2 : ℕ) : ℤ) + ((1 : ℕ) : ℤ)) (countFixed [1, 0, 2, 0, 3]) ∧
    (assemble_dof_indices [1, 0, 2, 0, 3] 2 1).Nodup ∧
    (assemble_dof_indices [(1 : ℤ), 0, 2, 0, 3] 2 1).length =
      [(1 : ℤ), 0, 2, 0, 3].length := by
  have h := assemble_dof_indices_spec [1, 0, 2, 0, 3] 2 1 (by decide) (by decide)
  exact ⟨h.1, h.2.1, h.2.2.1, h.2.2.2.1, h.2.2.2.2.2⟩

end Framesss

namespace Framesss

/-- Matrix-vector product of a ℕ-indexed matrix block with a ℕ-indexed
vector over the first `n` columns (the numpy `@` on the sliced blocks). -/
def matVec (m : ℕ → ℕ → ℚ) (v : ℕ → ℚ) (n : ℕ) : ℕ → ℚ :=
  fun i => ∑ j ∈ Finset.range n, m i j * v j

/-- The slice of `Model` state consumed by `solve_load_case`: the equation
counts per DOF class, the assembled global stiffness matrix (indexed by
global equation number) and the global spring stiffness coefficients. -/
structure ModelPartition where
  neq_free : ℕ
  neq_spring : ℕ
  neq : ℕ
  k_global : ℕ → ℕ → ℚ
  spring_stiffness_global : ℕ → ℚ

/-- The per-load-case state read and written by `solve_load_case`:
`f_global`, `u_global` (indexed by global equation number) and the solved
flag set by `LinearStaticSolver.solve`. -/
structure LoadCaseVectors where
  f_global : ℕ → ℚ
  u_global : ℕ → ℚ
  is_solved : Bool

/-- The free-free block `k_global[:nfs, :nfs]` as a Mathlib matrix
(`nfs = neq_free + neq_spring`). -/
def k_ff (md : ModelPartition) :
    Matrix (Fin (md.neq_free + md.neq_spring))
      (Fin (md.neq_free + md.neq_spring)) ℚ :=
  Matrix.of fun i j => md.k_global i j

/-- The singularity threshold of `solve_load_case`: the source literal is
`10.0e-12` (i.e. `1e-11`), the "fixed small threshold ≈ 1e-12". -/
def SINGULAR_DET_THRESHOLD : ℚ := 10 / 10 ^ 12

/-- The unknown-displacement solve `u_f = spsolve(k_ff, f_f - k_fc @ u_c)` of
`solve_load_case`, with `scipy.sparse.linalg.spsolve` abstracted as the
`spsolve` parameter. -/
def solved_u_f (md : ModelPartition)
    (spsolve : (ℕ → ℕ → ℚ) → (ℕ → ℚ) → (ℕ → ℚ))
    (lc : LoadCaseVectors) : ℕ → ℚ :=
  let nfs := md.neq_free + md.neq_spring
  let n_c := md.neq - nfs
  spsolve (fun i j => md.k_global i j)
    (fun i => lc.f_global i -
      matVec (fun i j => md.k_global i (nfs + j))
        (fun j => lc.u_global (nfs + j)) n_c i)

/-- The straight-line body of `solve_load_case` after the singularity guard
(source lines 60-90): partition the system, recover the fixed-DOF reactions
`f_c = -f_c + k_cf @ u_f + k_cc @ u_c`, overwrite the spring entries of
`f_f` with `f_s[i] = -k_spring[i] * u_f[neq_free + i]`, and reassemble
`u_global = [u_f, u_c]`, `f_global = [f_f, f_c]`. -/
def solve_load_case_result (md : ModelPartition)
    (spsolve : (ℕ → ℕ → ℚ) → (ℕ → ℚ) → (ℕ → ℚ))
    (lc : LoadCaseVectors) : LoadCaseVectors :=
  let nfs := md.neq_free + md.neq_spring
  let n_c := md.neq - nfs
  let k_cf : ℕ → ℕ → ℚ := fun i j => md.k_global (nfs + i) j
  let k_cc : ℕ → ℕ → ℚ := fun i j => md.k_global (nfs + i) (nfs + j)
  let f_f : ℕ → ℚ := fun i => lc.f_global i
  let f_c : ℕ → ℚ := fun i => lc.f_global (nfs + i)
  let u_c : ℕ → ℚ := fun i => lc.u_global (nfs + i)
  let u_f : ℕ → ℚ := solved_u_f md spsolve lc
  let f_c' : ℕ → ℚ :=
    fun i => -f_c i + matVec k_cf u_f nfs i + matVec k_cc u_c n_c i
  let f_s : ℕ → ℚ :=
    fun i => -md.spring_stiffness_global i * u_f (md.neq_free + i)
  let f_f' : ℕ → ℚ :=
    fun i => if md.neq_free ≤ i ∧ i < nfs then f_s (i - md.neq_free) else f_f i
  { u_global := fun i => if i < nfs then u_f i else u_c (i - nfs)
    f_global := fun i => if i < nfs then f_f' i else f_c' (i - nfs)
    is_solved := lc.is_solved }

/-- `LinearStaticSolver.solve_load_case`: raise `ValueError("Singular
stiffness matrix.")` when `det(k_ff) < 10.0e-12`, otherwise solve and store
the reassembled global vectors on the load case. -/
def solve_load_case (md : ModelPartition)
    (spsolve : (ℕ → ℕ → ℚ) → (ℕ → ℚ) → (ℕ → ℚ))
    (lc : LoadCaseVectors) : Except String LoadCaseVectors :=
  if (k_ff md).det < SINGULAR_DET_THRESHOLD then
    Except.error "Singular stiffness matrix."
  else
    Except.ok (solve_load_case_result md spsolve lc)

/-- The per-load-case slice of `LinearStaticSolver.solve`: run
`solve_load_case` and set `load_case.is_solved = True` afterwards; a raised
exception propagates, so on error the load case state is left untouched and
the flag is never set. -/
def solve_and_mark (md : ModelPartition)
    (spsolve : (ℕ → ℕ → ℚ) → (ℕ → ℚ) → (ℕ → ℚ))
    (lc : LoadCaseVectors) : Except String LoadCaseVectors :=
  match solve_load_case md spsolve lc with
  | Except.error e => Except.error e
  | Except.ok lc' => Except.ok { lc' with is_solved := true }

end Framesss

namespace Framesss

/-- C6: whenever `solve_load_case` succeeds, the stored force at each fixed
DOF equals `-f_c_applied + K_cf·u_f + K_cc·u_c` (with `u_f` the stored
free∪spring displacements and `u_c` the prescribed fixed displacements of the
load case), and the stored force at each spring DOF `i` equals
`-k_spring[i] · u[neq_free + i]`, the solved displacement of that DOF. -/
theorem solve_load_case_reactions (md : ModelPartition)
    (sp : (ℕ → ℕ → ℚ) → (ℕ → ℚ) → (ℕ → ℚ)) (lc lc' : LoadCaseVectors)
    (h : solve_load_case md sp lc = Except.ok lc') :
    (∀ i,
      lc'.f_global (md.neq_free + md.neq_spring + i) =
        -lc.f_global (md.neq_free + md.neq_spring + i) +
        (∑ j ∈ Finset.range (md.neq_free + md.neq_spring),
          md.k_global (md.neq_free + md.neq_spring + i) j * lc'.u_global j) +
        (∑ j ∈ Finset.range (md.neq - (md.neq_free + md.neq_spring)),
          md.k_global (md.neq_free + md.neq_spring + i)
              (md.neq_free + md.neq_spring + j) *
            lc.u_global (md.neq_free + md.neq_spring + j))) ∧
    (∀ i < md.neq_spring,
      lc'.f_global (md.neq_free + i) =
        -md.spring_stiffness_global i * lc'.u_global (md.neq_free + i)) := by
  rw [solve_load_case] at h
  split at h
  · cases h
  · have hlc : lc' = solve_load_case_result md sp lc := (Except.ok.inj h).symm
    subst hlc
    constructor
    · intro i
      have hnot : ¬(md.neq_free + md.neq_spring + i <
          md.neq_free + md.neq_spring) := by omega
      have hsum : ∀ j ∈ Finset.range (md.neq_free + md.neq_spring),
          md.k_global (md.neq_free + md.neq_spring + i) j *
            (solve_load_case_result md sp lc).u_global j =
          md.k_global (md.neq_free + md.neq_spring + i) j *
            solved_u_f md sp lc j := by
        intro j hj
        have hjlt := Finset.mem_range.mp hj
        simp only [solve_load_case_result, if_pos hjlt]
      rw [Finset.sum_congr rfl hsum]
      show (solve_load_case_result md sp lc).f_global _ = _
      simp only [solve_load_case_result, if_neg hnot, Nat.add_sub_cancel_left,
        matVec]
    · intro i hi
      have hlt : md.neq_free + i < md.neq_free + md.neq_spring := by omega
      have hcond : md.neq_free ≤ md.neq_free + i ∧
          md.neq_free + i < md.neq_free + md.neq_spring :=
        ⟨Nat.le_add_right _ _, hlt⟩
      show (solve_load_case_result md sp lc).f_global _ = _
      simp only [solve_load_case_result, if_pos hlt, if_pos hcond,
        Nat.add_sub_cancel_left]

end Framesss

namespace Framesss

/-- C7: `solve_load_case` (run inside `solve`, which sets `is_solved = True`
only after it returns) raises the dedicated stability error exactly when
`det(k_ff)` falls below the fixed threshold `10.0e-12`; on error no solved
load-case state is produced — the exception propagates, so `is_solved` stays
`False` and the stored `u_global`/`f_global` of `lc` are untouched — and at
or above the threshold no such error is raised and the solved state (with
`is_solved = True`) is returned. -/
theorem solve_load_case_singular_guard (md : ModelPartition)
    (sp : (ℕ → ℕ → ℚ) → (ℕ → ℚ) → (ℕ → ℚ)) (lc : LoadCaseVectors) :
    ((k_ff md).det < SINGULAR_DET_THRESHOLD ↔
      solve_and_mark md sp lc = Except.error "Singular stiffness matrix.") ∧
    (SINGULAR_DET_THRESHOLD ≤ (k_ff md).det ↔
      solve_and_mark md sp lc =
        Except.ok { solve_load_case_result md sp lc with is_solved := true }) := by
  by_cases hdet : (k_ff md).det < SINGULAR_DET_THRESHOLD
  · refine ⟨⟨fun _ => ?_, fun _ => hdet⟩, ⟨fun hle => ?_, fun h => ?_⟩⟩
    · simp [solve_and_mark, solve_load_case, hdet]
    · exact absurd hdet (not_lt.mpr hle)
    · exfalso
      simp [solve_and_mark, solve_load_case, hdet] at h
  · refine ⟨⟨fun h => absurd h hdet, fun h => ?_⟩,
      ⟨fun _ => ?_, fun _ => not_lt.mp hdet⟩⟩
    · exfalso
      simp [solve_and_mark, solve_load_case, hdet] at h
    · simp [solve_and_mark, solve_load_case, hdet]

/-- A concrete well-conditioned model used by witnesses: one free DOF, one
spring DOF, one fixed DOF, identity stiffness, spring stiffness `5`. -/
def demoModel : ModelPartition :=
  { neq_free := 1, neq_spring := 1, neq := 3,
    k_global := fun i j => if i = j then 1 else 0,
    spring_stiffness_global := fun _ => 5 }

/-- A concrete singular model: all-zero stiffness matrix. -/
def demoSingularModel : ModelPartition :=
  { neq_free := 1, neq_spring := 1, neq := 3,
    k_global := fun _ _ => 0,
    spring_stiffness_global := fun _ => 5 }

/-- A trivial stand-in for the abstracted sparse solver. -/
def demoSolver : (ℕ → ℕ → ℚ) → (ℕ → ℚ) → (ℕ → ℚ) := fun _ f => f

/-- A concrete unsolved load case. -/
def demoCase : LoadCaseVectors :=
  { f_global := fun i => (i : ℚ), u_global := fun i => (i : ℚ) + 1,
    is_solved := false }

theorem demoModel_det : (k_ff demoModel).det = 1 := by
  rw [show (k_ff demoModel).det =
      ((Matrix.of fun i j : Fin 2 => demoModel.k_global i j) :
        Matrix (Fin 2) (Fin 2) ℚ).det from rfl]
  rw [Matrix.det_fin_two]
  norm_num [demoModel]

theorem demoSingularModel_det : (k_ff demoSingularModel).det = 0 := by
  rw [show (k_ff demoSingularModel).det =
      ((Matrix.of fun i j : Fin 2 => demoSingularModel.k_global i j) :
        Matrix (Fin 2) (Fin 2) ℚ).det from rfl]
  rw [Matrix.det_fin_two]
  norm_num [demoSingularModel]

/-- Witness for `solve_load_case_singular_guard`: the zero-stiffness model
errors out, the identity-stiffness model solves and is marked solved. -/
theorem solve_load_case_singular_guard_witness :
    solve_and_mark demoSingularModel demoSolver demoCase =
      Except.error "Singular stiffness matrix." ∧
    solve_and_mark demoModel demoSolver demoCase =
      Except.ok { solve_load_case_result demoModel demoSolver demoCase with
                  is_solved := true } :=
  ⟨(solve_load_case_singular_guard demoSingularModel demoSolver demoCase).1.mp
      (by rw [demoSingularModel_det]; norm_num [SINGULAR_DET_THRESHOLD]),
   (solve_load_case_singular_guard demoModel demoSolver demoCase).2.mp
      (by rw [demoModel_det]; norm_num [SINGULAR_DET_THRESHOLD])⟩

/-- Witness for `solve_load_case_reactions` at the concrete identity-stiffness
model, instantiated at the first fixed DOF and the first spring DOF. -/
theorem solve_load_case_reactions_witness :
    (solve_load_case_result demoModel demoSolver demoCase).f_global
        (demoModel.neq_free + demoModel.neq_spring + 0) =
      -demoCase.f_global (demoModel.neq_free + demoModel.neq_spring + 0) +
      (∑ j ∈ Finset.range (demoModel.neq_free + demoModel.neq_spring),
        demoModel.k_global (demoModel.neq_free + demoModel.neq_spring + 0) j *
          (solve_load_case_result demoModel demoSolver demoCase).u_global j) +
      (∑ j ∈ Finset.range
          (demoModel.neq - (demoModel.neq_free + demoModel.neq_spring)),
        demoModel.k_global (demoModel.neq_free + demoModel.neq_spring + 0)
            (demoModel.neq_free + demoModel.neq_spring + j) *
          demoCase.u_global (demoModel.neq_free + demoModel.neq_spring + j)) ∧
    (solve_load_case_result demoModel demoSolver demoCase).f_global
        (demoModel.neq_free + 0) =
      -demoModel.spring_stiffness_global 0 *
        (solve_load_case_result demoModel demoSolver demoCase).u_global
          (demoModel.neq_free + 0) := by
  have h : solve_load_case demoModel demoSolver demoCase =
      Except.ok (solve_load_case_result demoModel demoSolver demoCase) := by
    rw [solve_load_case, if_neg]
    rw [demoModel_det]
    norm_num [SINGULAR_DET_THRESHOLD]
  exact ⟨(solve_load_case_reactions demoModel demoSolver demoCase _ h).1 0,
    (solve_load_case_reactions demoModel demoSolver demoCase _ h).2 0
      (by norm_num [demoModel])⟩

end Framesss

namespace Framesss

/-- The slice of `Element1D` state consumed by the post-solve recovery
methods: the gather vector `global_dofs`, the cached local stiffness matrix,
the member transformation matrix, and the number of element DOFs (12 = 2
nodes × 6). -/
structure ElementFE where
  n_dofs : ℕ
  global_dofs : ℕ → ℕ
  stiffness_matrix_local : ℕ → ℕ → ℚ
  transformation_matrix : ℕ → ℕ → ℚ

/-- The per-load-case solution read by the recovery methods: `u_global` is
`None` until the load case has been solved. -/
structure LoadCaseSolution where
  u_global : Option (ℕ → ℚ)

/-- `Element1D.get_element_internal_actions`: raise
`ValueError("'u_global' is not initialized.")` when the load case has no
global displacement solution; otherwise gather `u_g = u[global_dofs]`,
transform `u_l = T @ u_g` and return `K_local @ u_l`. -/
def get_element_internal_actions (e : ElementFE) (lc : LoadCaseSolution) :
    Except String (ℕ → ℚ) :=
  match lc.u_global with
  | none => Except.error "'u_global' is not initialized."
  | some u =>
      let u_g : ℕ → ℚ := fun i => u (e.global_dofs i)
      let u_l := matVec e.transformation_matrix u_g e.n_dofs
      Except.ok (matVec e.stiffness_matrix_local u_l e.n_dofs)

/-- `Element1D.get_element_local_displacements`: the same precondition check,
then the shape-function matrix `N` and the internal-displacement projection
are obtained from the member's analysis object (code outside the element —
abstracted here as the parameters `shape_matrix` and `internal_disp`; the
check happens before either is consulted). -/
def get_element_local_displacements (e : ElementFE) (lc : LoadCaseSolution)
    (shape_matrix : ℕ → ℕ → ℚ)
    (internal_disp : (ℕ → ℕ → ℚ) → (ℕ → ℚ) → (ℕ → ℚ)) :
    Except String (ℕ → ℚ) :=
  match lc.u_global with
  | none => Except.error "'u_global' is not initialized."
  | some u =>
      let u_g : ℕ → ℚ := fun i => u (e.global_dofs i)
      let u_l := matVec e.transformation_matrix u_g e.n_dofs
      Except.ok (internal_disp shape_matrix u_l)

/-- C9: while `u_global` of a load case is `None`, both
`get_element_internal_actions` and `get_element_local_displacements` fail
immediately with the `'u_global' is not initialized.` error and return no
vector; once `u_global` is populated, both return a vector and never raise
this error. -/
theorem recovery_requires_solved_case (e : ElementFE) (lc : LoadCaseSolution)
    (shape_matrix : ℕ → ℕ → ℚ)
    (internal_disp : (ℕ → ℕ → ℚ) → (ℕ → ℚ) → (ℕ → ℚ)) :
    (lc.u_global = none →
      get_element_internal_actions e lc =
        Except.error "'u_global' is not initialized." ∧
      get_element_local_displacements e lc shape_matrix internal_disp =
        Except.error "'u_global' is not initialized.") ∧
    (∀ u, lc.u_global = some u →
      (∃ v, get_element_internal_actions e lc = Except.ok v) ∧
      (∃ v, get_element_local_displacements e lc shape_matrix internal_disp =
        Except.ok v)) := by
  constructor
  · intro hnone
    constructor
    · rw [get_element_internal_actions, hnone]
    · rw [get_element_local_displacements, hnone]
  · intro u hsome
    constructor
    · exact ⟨_, by rw [get_element_internal_actions, hsome]⟩
    · exact ⟨_, by rw [get_element_local_displacements, hsome]⟩

/-- A trivial concrete element for the C9 witness. -/
def demoElement : ElementFE :=
  { n_dofs := 12, global_dofs := fun i => i,
    stiffness_matrix_local := fun i j => if i = j then 1 else 0,
    transformation_matrix := fun i j => if i = j then 1 else 0 }

/-- Witness for `recovery_requires_solved_case`: an unsolved load case
(`u_global = None`) errors and a solved one returns a vector. -/
theorem recovery_requires_solved_case_witness :
    (get_element_internal_actions demoElement ⟨none⟩ =
      Except.error "'u_global' is not initialized." ∧
     get_element_local_displacements demoElement ⟨none⟩ (fun _ _ => 0)
        (fun _ v => v) =
      Except.error "'u_global' is not initialized.") ∧
    ((get_element_internal_actions demoElement ⟨some fun _ => 1⟩).isOk =
        true ∧
     (get_element_local_displacements demoElement ⟨some fun _ => 1⟩
        (fun _ _ => 0) (fun _ v => v)).isOk = true) := by
  refine ⟨(recovery_requires_solved_case demoElement ⟨none⟩ (fun _ _ => 0)
      (fun _ v => v)).1 rfl, ?_, ?_⟩
  · obtain ⟨⟨v, hv⟩, _⟩ :=
      (recovery_requires_solved_case demoElement ⟨some fun _ => 1⟩
        (fun _ _ => 0) (fun _ v => v)).2 (fun _ => 1) rfl
    rw [hv]
    rfl
  · obtain ⟨_, ⟨v, hv⟩⟩ :=
      (recovery_requires_solved_case demoElement ⟨some fun _ => 1⟩
        (fun _ _ => 0) (fun _ v => v)).2 (fun _ => 1) rfl
    rw [hv]
    rfl

end Framesss
